import Mathlib

/-!
Verification of the wikidump structural-extraction core.

Shallow embedding of `wikidump/extractors/misc.py` (section segmenter,
coarse link scanner, window widener, precise link resolver, section
attributor) and `wikidump/timeout.py` (bounded execution guard).

Python strings are embedded as `List Char` (sequences of code points);
Python `int` is embedded as `Int` (or `Nat` where values are provably
non-negative in the source); regular-expression matching is embedded by
executable backtracking matchers that follow the semantics of the two
patterns of the source (`section_header_re`, `wikilink_re`,
`wikilink_simple_re`) with Perl-style leftmost-match, greedy and lazy
quantifier ordering.
-/

namespace Wikidump

/-- Python strings as lists of code points. -/
abbrev Str := List Char

/-- Convert a Lean string literal to the embedded string type. -/
def str (s : String) : Str := s.toList

/-- Modelled from the spec (the module `wikidump/extractors/common.py` is not
part of the sources): `Span` is a `(begin, end)` half-open offset pair into
the source text, a plain immutable pair with no validation.  Offsets are
embedded as `Int` because the code can construct spans from Python integer
arithmetic that goes negative. -/
structure Span where
  begin : Int
  «end» : Int
deriving DecidableEq, Repr

/-- Modelled from the spec (`wikidump/extractors/common.py` is not part of
the sources): `CaptureResult<T>` pairs an extracted value with the span it
came from. -/
structure CaptureResult (α : Type) where
  data : α
  span : Span
deriving DecidableEq, Repr

/-! ### Python string primitives -/

/-- Python `\s` / `str.strip()` whitespace class, restricted to the ASCII
whitespace characters (the only ones appearing in this development). -/
def isSpacePy (c : Char) : Bool :=
  c = ' ' || c = '\t' || c = '\n' || c = '\r' || c = '\x0b' || c = '\x0c'

/-- Python slice `s[a:b]` with full slice semantics: negative indices count
from the end, out-of-range indices are clamped. -/
def pySliceInt (s : Str) (a b : Int) : Str :=
  let n : Int := s.length
  let norm : Int → Nat := fun i =>
    if i < 0 then (max 0 (n + i)).toNat else (min i n).toNat
  let a' := norm a
  let b' := norm b
  (s.drop a').take (b' - a')

/-- Python slice `s[a:b]` for non-negative indices. -/
def pySliceN (s : Str) (a b : Nat) : Str :=
  (s.drop a).take (b - a)

/-- Python `str.strip()` (strip whitespace from both ends). -/
def pyStrip (s : Str) : Str :=
  ((s.dropWhile isSpacePy).reverse.dropWhile isSpacePy).reverse

/-- Python `str.lstrip(c)` for a one-character strip set. -/
def pyLstripChar (c : Char) (s : Str) : Str := s.dropWhile (· = c)

/-- Python `str.rstrip(c)` for a one-character strip set. -/
def pyRstripChar (c : Char) (s : Str) : Str :=
  (s.reverse.dropWhile (· = c)).reverse

/-- Python `str.strip(c)` for a one-character strip set. -/
def pyStripChar (c : Char) (s : Str) : Str :=
  pyRstripChar c (pyLstripChar c s)

/-- Index of the first occurrence of `c`, if any. -/
def pyFindCharAux (c : Char) : Str → Option Nat
  | [] => none
  | x :: r => if x = c then some 0 else (pyFindCharAux c r).map (· + 1)

/-- Python `str.find(c)` for a one-character needle: index of the first
occurrence, `-1` when absent. -/
def pyFindChar (s : Str) (c : Char) : Int :=
  match pyFindCharAux c s with
  | some i => (i : Int)
  | none => -1

/-- Python truthiness of an `int`: everything but `0` is truthy. -/
def pyTruthyInt (i : Int) : Bool := i ≠ 0

/-- Helper for `pySplitWs`: `cur` is the current word, reversed. -/
def pySplitWsAux : Str → Str → List Str
  | cur, [] => if cur.isEmpty then [] else [cur.reverse]
  | cur, c :: rest =>
    if isSpacePy c then
      if cur.isEmpty then pySplitWsAux [] rest
      else cur.reverse :: pySplitWsAux [] rest
    else pySplitWsAux (c :: cur) rest

/-- Python `str.split()` (split on whitespace runs, dropping empty pieces). -/
def pySplitWs (s : Str) : List Str := pySplitWsAux [] s

/-- Python `' '.join(pieces)`. -/
def joinSpace : List Str → Str
  | [] => []
  | [p] => p
  | p :: q :: rest => p ++ ' ' :: joinSpace (q :: rest)

/-! ### The section header pattern

`section_header_re = ^(?P<equals>=+)(?P<section_name>.+?)(?P=equals)\s*$`
compiled with `VERBOSE | MULTILINE`.  The matcher below follows the
backtracking order of the `regex` module: the greedy `=+` tries the longest
equals run first, the lazy `.+?` tries the shortest name first, the
backreference re-matches exactly the same number of equals, and the greedy
`\s*` tries the longest whitespace run first, constrained by the MULTILINE
`$` (end of string, or a position directly before a newline). -/

/-- A match of `section_header_re`: `start`/`end` are the offsets of the full
match (`\s*` included), `level` is the length of the equals run, `name` the
text of the `section_name` group. -/
structure HeaderMatch where
  start : Nat
  «end» : Nat
  level : Nat
  name : Str
deriving DecidableEq, Repr

/-- Length of the leading run of `=` characters. -/
def eqRun : Str → Nat
  | [] => 0
  | c :: r => if c = '=' then eqRun r + 1 else 0

/-- Does the list start with `e` copies of `=`? (the backreference). -/
def hasEquals : Nat → Str → Bool
  | 0, _ => true
  | _ + 1, [] => false
  | e + 1, c :: r => c = '=' && hasEquals e r

/-- Length of the leading whitespace run. -/
def wsRun : Str → Nat
  | [] => 0
  | c :: r => if isSpacePy c then wsRun r + 1 else 0

/-- MULTILINE `$`: end of string or directly before a newline. -/
def dollarAt : Str → Bool
  | [] => true
  | c :: _ => c = '\n'

/-- Greedy `\s*$`: try consuming `k` whitespace characters, longest first.
Returns the number of characters consumed by `\s*`. -/
def wsBack (w : Str) : Nat → Option Nat
  | 0 => if dollarAt w then some 0 else none
  | k + 1 => if dollarAt (w.drop (k + 1)) then some (k + 1) else wsBack w k

/-- Match the trailing `\s*$` of the header pattern against `w`. -/
def trailingWs (w : Str) : Option Nat := wsBack w (wsRun w)

/-- Lazy `(?P<section_name>.+?)(?P=equals)\s*$` starting at `v` (the suffix
after the opening equals run of length `e`): try the shortest name first; a
name character is any character except a newline.  On success, returns the
name text together with the number of characters consumed from `v`
(name, backreference and trailing whitespace). -/
def nameLoop (e : Nat) : Str → Option (Str × Nat)
  | [] => none
  | c :: v =>
    if c = '\n' then none
    else if hasEquals e v then
      match trailingWs (v.drop e) with
      | some w => some ([c], 1 + e + w)
      | none => (nameLoop e v).map (fun p => (c :: p.1, p.2 + 1))
    else (nameLoop e v).map (fun p => (c :: p.1, p.2 + 1))

/-- Greedy `=+`: try an equals run of length `e`, longest first (the caller
starts at the full run length, which bounds every candidate).  On success,
returns the level, the total number of characters consumed from `u`, and the
name text. -/
def tryEquals (u : Str) : Nat → Option (Nat × Nat × Str)
  | 0 => none
  | e + 1 =>
    match nameLoop (e + 1) (u.drop (e + 1)) with
    | some (nm, r) => some (e + 1, (e + 1) + r, nm)
    | none => tryEquals u e

/-- Try to match `section_header_re` at offset `p` of `s` (the `^` anchor is
checked by the caller). -/
def tryHeaderAt (s : Str) (p : Nat) : Option HeaderMatch :=
  let u := s.drop p
  match tryEquals u (eqRun u) with
  | some (e, c, nm) => some ⟨p, p + c, e, nm⟩
  | none => none

/-- MULTILINE `^`: offset 0, or directly after a newline. -/
def lineStart (s : Str) (p : Nat) : Bool :=
  p = 0 || List.getD s (p - 1) 'x' = '\n'

/-- `finditer(section_header_re, s)` from scan position `p`: leftmost
non-overlapping matches, resuming each scan at the end of the previous
match.  `fuel` bounds the scan (`s.length + 1` suffices from position 0). -/
def findHeadersAux (s : Str) : Nat → Nat → List HeaderMatch
  | 0, _ => []
  | fuel + 1, p =>
    if p > s.length then []
    else if lineStart s p then
      match tryHeaderAt s p with
      | some m => m :: findHeadersAux s fuel m.«end»
      | none => findHeadersAux s fuel (p + 1)
    else findHeadersAux s fuel (p + 1)

/-- All matches of `section_header_re` in `s`, in document order. -/
def findHeaders (s : Str) : List HeaderMatch :=
  findHeadersAux s (s.length + 1) 0

/-! ### The `Section` class and the `sections` extractor -/

/-- The `Section` class of `misc.py`: `name`, `level`, `body`, and the
memoization attribute `_full_body` (initialized to `None`). -/
structure Section where
  name : Str
  level : Nat
  body : Str
  fullBodyCache : Option Str
deriving DecidableEq, Repr

/-- `Section.__init__`: the cache starts out empty. -/
def mkSection (name : Str) (level : Nat) (body : Str) : Section :=
  ⟨name, level, body, none⟩

/-- `Section.is_preamble`. -/
def Section.isPreamble (s : Section) : Bool := s.level = 0

/-- `Section.full_body`: return the memoized value when present; otherwise
compute it (`body` for the preamble, `'{equals}{name}{equals}\n{body}'`
otherwise) and cache it.  Returns the value together with the updated
object. -/
def Section.fullBody (s : Section) : Str × Section :=
  match s.fullBodyCache with
  | some fb => (fb, s)
  | none =>
    let fb :=
      if s.isPreamble then s.body
      else
        let equals := List.replicate s.level '='
        equals ++ s.name ++ equals ++ '\n' :: s.body
    (fb, { s with fullBodyCache := some fb })

/-- The header-driven tail of `sections`: one `Section` per header match,
whose body ends one character before the start of the next header (the
newline), or at the end of the document for the last header. -/
def sectionsFrom (source : Str) : List HeaderMatch → List (CaptureResult Section)
  | [] => []
  | m :: rest =>
    let bodyBegin : Int := (m.«end» : Int) + 1
    let bodyEnd : Int :=
      match rest with
      | [] => (source.length : Int)
      | m2 :: _ => (m2.start : Int) - 1
    ⟨mkSection m.name m.level (pySliceInt source bodyBegin bodyEnd),
      ⟨(m.start : Int), bodyEnd⟩⟩ :: sectionsFrom source rest

/-- `sections(source, include_preamble)` of `misc.py`, with the lazy
generator materialized as a list.  When the preamble is included, it spans
from offset 0 to one character before the first header (or the whole
document when there is no header). -/
def sectionsPy (source : Str) (includePreamble : Bool) :
    List (CaptureResult Section) :=
  let hs := findHeaders source
  let pre : List (CaptureResult Section) :=
    if includePreamble then
      let bodyEnd : Int :=
        match hs with
        | [] => (source.length : Int)
        | m :: _ => (m.start : Int) - 1
      [⟨mkSection [] 0 (pySliceInt source 0 bodyEnd), ⟨0, bodyEnd⟩⟩]
    else []
  pre ++ sectionsFrom source hs

/-! ### The coarse link scanner

`wikilink_simple_re = \[\[ [^\n\]\[]+? \]\]` — minimal double-bracket
candidates, lazy content of at least one character. -/

/-- A match of `wikilink_simple_re` (offsets of the full match). -/
structure SimpleMatch where
  mstart : Nat
  mend : Nat
deriving DecidableEq, Repr

/-- Characters allowed inside a coarse candidate: anything except a newline
and square brackets. -/
def isSimpleChar (c : Char) : Bool := !(c = '\n' || c = ']' || c = '[')

/-- Lazy continuation of the candidate content: stop at the first `]]`. -/
def simpleInner : Str → Option Nat
  | ']' :: ']' :: _ => some 2
  | c :: rest => if isSimpleChar c then (simpleInner rest).map (· + 1) else none
  | [] => none

/-- Content of a coarse candidate after the opening `[[`: at least one
content character, then the lazy scan for `]]`. -/
def simpleAfter : Str → Option Nat
  | c :: rest => if isSimpleChar c then (simpleInner rest).map (· + 1) else none
  | [] => none

/-- Try to match `wikilink_simple_re` at offset `p`. -/
def trySimpleAt (s : Str) (p : Nat) : Option SimpleMatch :=
  match s.drop p with
  | '[' :: '[' :: v => (simpleAfter v).map (fun c => ⟨p, p + 2 + c⟩)
  | _ => none

/-- `finditer(wikilink_simple_re, s)` from scan position `p`. -/
def findSimpleAux (s : Str) : Nat → Nat → List SimpleMatch
  | 0, _ => []
  | fuel + 1, p =>
    if p > s.length then []
    else
      match trySimpleAt s p with
      | some m => m :: findSimpleAux s fuel m.mend
      | none => findSimpleAux s fuel (p + 1)

/-- All coarse candidates of `s`, in document order. -/
def findSimpleLinks (s : Str) : List SimpleMatch :=
  findSimpleAux s (s.length + 1) 0

/-! ### The full wikilink grammar

`wikilink_re`, with groups `total`, `wikilink`, `link`, `anchor`:

`\s? (?P<total> \S*? (?P<wikilink> \[\[ (?P<link>[^\n\|\]\[\<\>\{\}]{0,256})
(?: \| (?P<anchor> [^\[]*? ) )? \]\] ) \S*) \s?` -/

/-- A match of `wikilink_re`. -/
structure WMatch where
  mstart : Nat
  mend : Nat
  totalB : Nat
  totalE : Nat
  wikiB : Nat
  wikiE : Nat
  link : Str
  anchor : Option Str
deriving DecidableEq, Repr

/-- Characters legal in the `link` group: everything except newline, pipe,
square brackets, angle brackets and curly brackets. -/
def isLinkChar (c : Char) : Bool :=
  !(c = '\n' || c = '|' || c = ']' || c = '[' || c = '<' || c = '>' ||
    c = '\x7b' || c = '\x7d')

/-- Lazy `(?P<anchor>[^\[]*?)\]\]`: stop at the first `]]`; an anchor
character is anything except an opening bracket.  Returns the anchor text
and the number of characters consumed (closing brackets included). -/
def anchorLoop : Str → Option (Str × Nat)
  | ']' :: ']' :: _ => some ([], 2)
  | c :: rest =>
    if c = '[' then none
    else (anchorLoop rest).map (fun p => (c :: p.1, p.2 + 1))
  | [] => none

/-- Try the tail of the `wikilink` group for a fixed `link` length `l`
(greedy `(?:\|(?P<anchor>...))?`: the pipe branch first, then the empty
branch, then the closing `\]\]`).  Returns link, anchor and the number of
characters consumed from `u2` (the suffix after `[[`). -/
def tryLinkLen (u2 : Str) (l : Nat) : Option (Str × Option Str × Nat) :=
  let v := u2.drop l
  (match v with
   | '|' :: v2 => (anchorLoop v2).map (fun p => (u2.take l, some p.1, l + 1 + p.2))
   | _ => none)
  <|>
  (match v with
   | ']' :: ']' :: _ => some (u2.take l, none, l + 2)
   | _ => none)

/-- Greedy `{0,256}` on the `link` group: try the longest length first. -/
def linkDescend (u2 : Str) : Nat → Option (Str × Option Str × Nat)
  | 0 => tryLinkLen u2 0
  | l + 1 => tryLinkLen u2 (l + 1) <|> linkDescend u2 l

/-- Match the `wikilink` group (`\[\[ link (\|anchor)? \]\]`) at the start
of `u`.  Returns link, anchor and the total number of characters of the
group. -/
def matchWiki (u : Str) : Option (Str × Option Str × Nat) :=
  match u with
  | '[' :: '[' :: u2 =>
    (linkDescend u2 (min 256 ((u2.takeWhile isLinkChar).length))).map
      (fun p => (p.1, p.2.1, p.2.2 + 2))
  | _ => none

/-- Length of the leading run of non-whitespace characters (greedy `\S*`). -/
def nonSpaceRun (s : Str) : Nat := (s.takeWhile (fun c => !isSpacePy c)).length

/-- Lazy `\S*?` before the `wikilink` group: try the wikilink at each
offset, extending the non-space run one character at a time.  `q` is the
offset where the `total` group starts and `u` the corresponding suffix of
the subject; `off` is the current number of characters taken by `\S*?`.
Returns `(wikiB, wikiE, link, anchor, totalE)` in subject offsets. -/
def totalLoop (q : Nat) : Str → Nat → Option (Nat × Nat × Str × Option Str × Nat)
  | u, off =>
    match matchWiki u with
    | some (lnk, anc, c) =>
      let wikiB := q + off
      let wikiE := q + off + c
      some (wikiB, wikiE, lnk, anc, wikiE + nonSpaceRun (u.drop c))
    | none =>
      match u with
      | [] => none
      | ch :: u2 => if isSpacePy ch then none else totalLoop q u2 (off + 1)

/-- Match everything after the optional leading `\s?`, with the `total`
group starting at offset `q`; fill in `mstart` later. -/
def matchAtCore (s : Str) (q : Nat) : Option WMatch :=
  (totalLoop q (s.drop q) 0).map (fun r =>
    let (wb, we, lnk, anc, te) := r
    let mend :=
      match s.drop te with
      | c :: _ => if isSpacePy c then te + 1 else te
      | [] => te
    ⟨q, mend, q, te, wb, we, lnk, anc⟩)

/-- Try `wikilink_re` at offset `p`: the greedy leading `\s?` first tries to
consume one whitespace character, then falls back to none. -/
def wikiMatchAt (s : Str) (p : Nat) : Option WMatch :=
  let plain := (matchAtCore s p).map (fun m => { m with mstart := p })
  match s.drop p with
  | c :: _ =>
    if isSpacePy c then
      match matchAtCore s (p + 1) with
      | some m => some { m with mstart := p }
      | none => plain
    else plain
  | [] => plain

/-- `wikilink_re.search(s)`: the match at the leftmost offset where the
pattern matches. -/
def wikilinkSearchAux (s : Str) : Nat → Nat → Option WMatch
  | 0, _ => none
  | fuel + 1, p =>
    match wikiMatchAt s p with
    | some m => some m
    | none => if p ≥ s.length then none else wikilinkSearchAux s fuel (p + 1)

/-- `wikilink_re.search(s)`. -/
def wikilinkSearch (s : Str) : Option WMatch :=
  wikilinkSearchAux s (s.length + 1) 0

/-! ### The `wikilinks` extractor -/

/-- The `Wikilink` class of `misc.py`. -/
structure Wikilink where
  link : Str
  tosection : Str
  anchor : Str
  sectionName : Str
  sectionLevel : Nat
  sectionNumber : Nat
deriving DecidableEq, Repr

/-- The `SectionLimits` named tuple of `misc.py`. -/
structure SectionLimits where
  name : Str
  level : Nat
  number : Nat
  begin : Int
  «end» : Int
deriving DecidableEq, Repr

/-- Lines 353-358 with the enumeration counter made explicit: one
`SectionLimits` per incoming section, numbered `idx, idx+1, ...`. -/
def sectionsLimitsFrom (idx : Nat) : List (CaptureResult Section) → List SectionLimits
  | [] => []
  | cr :: rest =>
    ⟨cr.data.name, cr.data.level, idx, cr.span.begin, cr.span.«end»⟩ ::
      sectionsLimitsFrom (idx + 1) rest

/-- Lines 353-358: the positional index built once per document from the
incoming section sequence, with 1-based numbering
(`enumerate(sections, 1)`). -/
def sectionsLimits (secs : List (CaptureResult Section)) : List SectionLimits :=
  sectionsLimitsFrom 1 secs

/-- Python exceptions relevant to this development. -/
inductive PyError where
  | nameError (name : String)
deriving DecidableEq, Repr

/-- `reverse_position` of `misc.py` (lines 296-312).  Python `%` is floor
modulus, i.e. `Int.fmod`.  (In the source this function is only ever
mentioned in the expression that raises the `revtext` NameError, so it is
never actually invoked.) -/
def reversePosition (revpos strlen : Int) : Int :=
  if revpos = -1 then -1 else Int.fmod (-(revpos + 1)) strlen

/-- `space_re.search`: index of the first whitespace character. -/
def firstSpaceIdx (u : Str) : Option Nat := u.findIdx? isSpacePy

/-- `space_rtl_re.search` (reverse search `(?r)\s`): index of the last
whitespace character. -/
def lastSpaceIdx (u : Str) : Option Nat :=
  (u.reverse.findIdx? isSpacePy).map (fun i => u.length - 1 - i)

/-- Lines 365-378: the left window boundary.  Both paths read the local
variable `revtext`, whose assignment (line 367) is commented out in the
source: when a preceding whitespace exists, line 373 evaluates
`len(revtext)`; otherwise line 378 executes `del revtext`.  Either way the
interpreter raises a NameError for `revtext`. -/
def widenLeft (source : Str) (prevmatchStart mstart : Nat) : Except PyError Nat :=
  let seg := pySliceN source prevmatchStart mstart
  match lastSpaceIdx seg with
  | some _ => .error (.nameError "revtext")
  | none => .error (.nameError "revtext")

/-- Lines 380-387: the right window boundary — the position of the first
whitespace character after the candidate, or (sic) the candidate end when
there is none. -/
def spacePostPos (source : Str) (sm : SimpleMatch) : Nat :=
  match firstSpaceIdx (source.drop sm.mend) with
  | some i => sm.mend + i
  | none => sm.mend

/-- Line 390: the widened window handed to the full grammar. -/
def subtextOf (source : Str) (spacePrevPos : Nat) (sm : SimpleMatch) : Str :=
  pySliceN source spacePrevPos (spacePostPos source sm)

/-- Lines 404-408: the raw bracket contents of a candidate whose window the
grammar failed to match. -/
def simpleMatchText (source : Str) (sm : SimpleMatch) : Str :=
  pyRstripChar ']' (pyLstripChar '[' (pyStrip (pySliceN source sm.mstart sm.mend)))

/-- Lines 412-416: the skip condition for a grammar mismatch, exactly as
written — a disjunction of the Python truthiness of `str.find` results. -/
def mismatchSkipCond (t : Str) : Bool :=
  pyTruthyInt (pyFindChar t '|') || pyTruthyInt (pyFindChar t '>') ||
  pyTruthyInt (pyFindChar t '<') || pyTruthyInt (pyFindChar t '\x7b') ||
  pyTruthyInt (pyFindChar t '\x7d')

/-- `link.split('#', 1)`: the text before the first `#` and the text after
it (only called when a `#` is present). -/
def splitHashOnce (l : Str) : Str × Str :=
  let before := l.takeWhile (· ≠ '#')
  match l.dropWhile (· ≠ '#') with
  | _ :: after => (before, after)
  | [] => (before, [])

/-- Lines 425-435: trim the raw `link` group, split a `#section` fragment,
and substitute the page title for an empty page part. -/
def resolvedLinkTo (pageTitle rawLink : Str) : Str × Str :=
  let link := pyStrip rawLink
  if link.contains '#' then
    let (pagePart, secPart) := splitHashOnce link
    (if pagePart = [] then pageTitle else pagePart, secPart)
  else (link, [])

/-- Lines 437-441: the anchor defaults to the (post-split) link when the
anchor group is absent or empty (Python `or`), newlines become spaces, and
whitespace runs are collapsed. -/
def resolvedAnchor (anchorGroup : Option Str) (link : Str) : Str :=
  let anchor :=
    match anchorGroup with
    | none => link
    | some a => if a = [] then link else a
  let anchor := anchor.map (fun c => if c = '\n' then ' ' else c)
  joinSpace (pySplitWs (pyStrip anchor))

/-- The three fields filled in by the attribution loop. -/
structure AttrResult where
  number : Nat
  name : Str
  level : Nat
deriving DecidableEq, Repr

/-- Lines 450-457: first section of the scanned suffix whose inclusive
`[begin, end]` range contains the offset. -/
def attrScan : List SectionLimits → Int → Option SectionLimits
  | [], _ => none
  | sec :: rest, t =>
    if sec.begin ≤ t ∧ t ≤ sec.«end» then some sec else attrScan rest t

/-- Lines 446-457: attribute a match offset to its section, resuming the
monotonic scan at `lastSeen`; returns the attribution and the updated
resume index. -/
def attrOne (limits : List SectionLimits) (lastSeen : Nat) (t : Int) :
    AttrResult × Nat :=
  match attrScan (limits.drop lastSeen) t with
  | some sec =>
    (⟨sec.number, sec.name, sec.level⟩,
     if sec.number > 0 then sec.number - 1 else 0)
  | none => (⟨0, str "---~--- incipit ---~---", 0⟩, lastSeen)

/-- Line 484-486: the affix before the brackets, stray `[` stripped. -/
def anchorPreText (source : Str) (m : WMatch) : Str :=
  pyStripChar '[' (pySliceN source m.totalB m.wikiB)

/-- Line 487-489: the affix after the brackets, stray `]` stripped. -/
def anchorSufText (source : Str) (m : WMatch) : Str :=
  pyStripChar ']' (pySliceN source m.wikiE m.totalE)

/-- Line 490: the visually concatenated anchor, affixes re-attached.  In the
source this value is assigned to the local `anchor` only after the
`Wikilink` object has been constructed (line 475), so it never reaches the
emitted result. -/
def attachedAnchor (source : Str) (m : WMatch) (anchor : Str) : Str :=
  anchorPreText source m ++ anchor ++ anchorSufText source m

/-- What one loop iteration of `wikilinks` does with a candidate. -/
inductive Outcome where
  | emitted (cr : CaptureResult Wikilink)
  | skippedMismatch
  | debuggerBreak
  | droppedEmptyLink
deriving DecidableEq, Repr

/-- The loop-carried variables of `wikilinks` (lines 360-362). -/
structure LoopState where
  lastSectionSeen : Nat
  prevmatchStart : Nat
  prevmatchEnd : Nat
deriving DecidableEq, Repr

/-- Lines 389-493: the body of the candidate loop of `wikilinks`, from the
widened window onward.  `spacePrevPos` is taken as a parameter because the
source's own computation of it raises a NameError on every path
(see `widenLeft`); the fallback value the source assigns on the no-space
path (line 377) is `sm.mstart`.

The grammar-mismatch branch returns `skippedMismatch` for the `continue` at
line 417 and `debuggerBreak` for the `ipdb.set_trace()` at line 419; the
empty-link branch (line 472-473) returns `droppedEmptyLink`. -/
def processCandidate (pageTitle source : Str) (limits : List SectionLimits)
    (st : LoopState) (spacePrevPos : Nat) (sm : SimpleMatch) :
    Outcome × LoopState :=
  let subtext := subtextOf source spacePrevPos sm
  match wikilinkSearch subtext with
  | none =>
    if mismatchSkipCond (simpleMatchText source sm) then (.skippedMismatch, st)
    else (.debuggerBreak, st)
  | some m =>
    let st1 : LoopState :=
      { st with prevmatchStart := m.mstart, prevmatchEnd := m.mend }
    let (link, tosection) := resolvedLinkTo pageTitle m.link
    let anchor := resolvedAnchor m.anchor link
    let totalStart : Int := m.totalB
    let totalEnd : Int := m.totalE
    let (attr, lastSeen) := attrOne limits st1.lastSectionSeen totalStart
    let st2 : LoopState := { st1 with lastSectionSeen := lastSeen }
    if link = [] then (.droppedEmptyLink, st2)
    else
      let wl : Wikilink := ⟨link, tosection, anchor, attr.name, attr.level, attr.number⟩
      let _deadAnchor := attachedAnchor source m anchor
      (.emitted ⟨wl, ⟨totalStart, totalEnd⟩⟩, st2)

/-- The candidate loop of `wikilinks`: widen each coarse candidate (which
raises), then hand it to the loop body. -/
def wikilinksGo (pageTitle source : Str) (limits : List SectionLimits) :
    List SimpleMatch → LoopState → List (CaptureResult Wikilink) →
    Except PyError (List (CaptureResult Wikilink))
  | [], _, acc => .ok acc.reverse
  | sm :: rest, st, acc => do
    let sp ← widenLeft source st.prevmatchStart sm.mstart
    let (out, st2) := processCandidate pageTitle source limits st sp sm
    let acc2 := match out with
      | .emitted cr => cr :: acc
      | _ => acc
    wikilinksGo pageTitle source limits rest st2 acc2

/-- `wikilinks(page_title, source, sections)` of `misc.py` (the
`debug=False` path), with the generator materialized as a list of emitted
results, or the exception that escapes it. -/
def wikilinksPy (pageTitle source : Str) (secs : List (CaptureResult Section)) :
    Except PyError (List (CaptureResult Wikilink)) :=
  wikilinksGo pageTitle source (sectionsLimits secs) (findSimpleLinks source)
    ⟨0, 0, 0⟩ []

/-- Does a loop-body outcome emit a result? -/
def Outcome.isEmitted : Outcome → Bool
  | .emitted _ => true
  | _ => false

/-- The attribution fold: process a sequence of match offsets in order,
threading `last_section_seen`, and record the attributed section numbers. -/
def attrAll (limits : List SectionLimits) : Nat → List Int → List Nat
  | _, [] => []
  | seen, t :: ts =>
    let r := attrOne limits seen t
    r.1.number :: attrAll limits r.2 ts

/-! ### The bounded execution guard (`wikidump/timeout.py`)

`wrap_timeout(func, timeout)` installs a SIGALRM handler, arms
`signal.alarm(timeout)`, calls `func`, and disarms with `signal.alarm(0)`
on normal completion; the handler raises `CallTimeout("<funcname> timed
out")` when the alarm fires during the call.

Real time is modelled explicitly: an operation carries the number of time
units its call takes (`cost`) and the process alarm timer is the explicit
`GuardState`.  Per the semantics of `signal.alarm(n)`, `n = 0` cancels any
pending alarm instead of arming one; an armed alarm for `d` units fires
during the call exactly when the call has not completed within `d` units
(`d ≤ cost`), and firing consumes the timer. -/

/-- The process-wide SIGALRM timer: `some d` means an alarm is armed to
fire after `d` time units. -/
structure GuardState where
  armed : Option Nat
deriving DecidableEq, Repr

/-- The `CallTimeout` exception of `timeout.py`. -/
structure CallTimeout where
  message : String
deriving DecidableEq, Repr

/-- `handler(signum, frame)`: raise `CallTimeout` carrying the name of the
code object executing when the signal arrived — the wrapped operation. -/
def handlerRaise (funcname : String) : CallTimeout :=
  ⟨funcname ++ " timed out"⟩

/-- An operation handed to the guard: its identity (`__code__.co_name`),
the time its call takes, and the value it returns. -/
structure Operation (α : Type) where
  name : String
  cost : Nat
  result : α

/-- `wrap_timeout(func, timeout)` of `timeout.py`: arm the alarm
(`signal.alarm(timeout)`, a no-op cancel when `timeout = 0`), run the call,
and either return its result after disarming (`signal.alarm(0)`), or
propagate the `CallTimeout` raised by the handler when the alarm fires
first (the timer being consumed by firing). -/
def wrapTimeout {α : Type} (op : Operation α) (timeoutArg : Nat)
    (_st : GuardState) : Except CallTimeout α × GuardState :=
  let armed : Option Nat := if timeoutArg = 0 then none else some timeoutArg
  match armed with
  | some d =>
    if d ≤ op.cost then (.error (handlerRaise op.name), ⟨none⟩)
    else (.ok op.result, ⟨none⟩)
  | none => (.ok op.result, ⟨none⟩)

/-! ### Invariants used by the theorems -/

/-- Structural facts about the header matches produced from scan position
`p`: starts are at or after `p`, every match is at least three characters
long and ends inside the document, levels are positive, and each match
starts at or after the end of the previous one. -/
def HeadersOK (s : Str) : Nat → List HeaderMatch → Prop
  | _, [] => True
  | p, m :: rest =>
    p ≤ m.start ∧ m.start + 3 ≤ m.«end» ∧ m.«end» ≤ s.length ∧ 1 ≤ m.level ∧
    HeadersOK s m.«end» rest

/-- The resume-scan invariant of the attribution loop: every section the
scan has permanently skipped ends strictly before the next offset to be
processed. -/
def AttrInv (limits : List SectionLimits) (seen : Nat) (t : Int) : Prop :=
  ∀ i a, i < seen → limits.get? i = some a → a.«end» < t

/-- Well-formedness of a positional section index: numbers are the 1-based
positions, every range spans at least two offsets, and ranges of distinct
sections are strictly ordered (hence disjoint). -/
def LimitsWF (limits : List SectionLimits) : Prop :=
  (∀ j sec, limits.get? j = some sec →
    sec.number = j + 1 ∧ sec.begin + 2 ≤ sec.«end») ∧
  (∀ i j a b, i < j → limits.get? i = some a → limits.get? j = some b →
    a.«end» < b.begin)

/-- The end offset of the synthetic preamble of `sections(source, True)`:
one character before the first header, or the document length when there is
no header. -/
def preEnd (source : Str) : Int :=
  match findHeaders source with
  | [] => (source.length : Int)
  | m :: _ => (m.start : Int) - 1

/-- Is the offset `x` inside one of the yielded spans? -/
def coveredBy (l : List (CaptureResult Section)) (x : Int) : Prop :=
  ∃ cr ∈ l, cr.span.begin ≤ x ∧ x < cr.span.«end»

/-- A document that is one coarse candidate whose bracket contents are 257
characters long: the full grammar cannot match it (page titles are limited
to 256 characters) although the contents contain none of the five
template-marker characters. -/
def longLinkDoc : Str := '[' :: '[' :: (List.replicate 257 'a' ++ [']', ']'])

/-! # Theorems -/

/-- The left-boundary computation raises on every path: with a preceding
whitespace it evaluates `len(revtext)` (line 373), without one it executes
`del revtext` (line 378) — `revtext` being unbound either way. -/
theorem widenLeft_error (source : Str) (a b : Nat) :
    widenLeft source a b = .error (.nameError "revtext") := by
  unfold widenLeft
  dsimp only
  split <;> rfl

/-- **C2**: the window widener never completes: as soon as the document has
a coarse candidate, the extractor fails with `NameError: revtext` instead of
computing the left window boundary. -/
theorem c2_widener_name_error (pageTitle source : Str)
    (secs : List (CaptureResult Section))
    (h : findSimpleLinks source ≠ []) :
    wikilinksPy pageTitle source secs = .error (.nameError "revtext") := by
  unfold wikilinksPy
  cases hfs : findSimpleLinks source with
  | nil => exact absurd hfs h
  | cons sm rest =>
    simp only [wikilinksGo, widenLeft_error]
    rfl

/-- Witness for C2 at the concrete document `"a [[b]]"`. -/
theorem c2_widener_name_error_witness :
    wikilinksPy (str "Page") (str "a [[b]]") [] = .error (.nameError "revtext") :=
  c2_widener_name_error (str "Page") (str "a [[b]]") [] (by decide)

/-- **C6**: on a document whose very first line is a header, the synthetic
preamble is `Span(0, -1)` — `body_end = first_header_start - 1` is applied
even when the first header starts at offset 0 — so the yielded spans do not
all satisfy `end ≥ begin ≥ 0`; the preamble body is `source[:-1]`, the
whole document minus its last character, rather than the empty string. -/
theorem c6_preamble_negative_span :
    (sectionsPy (str "==H==\nx") true).map (fun cr => cr.span) =
      [⟨0, -1⟩, ⟨0, 7⟩] ∧
    (sectionsPy (str "==H==\nx") true).map (fun cr => cr.data.body) =
      [str "==H==\n", str "x"] ∧
    ¬ (∀ cr ∈ sectionsPy (str "==H==\nx") true,
        0 ≤ cr.span.begin ∧ cr.span.begin ≤ cr.span.«end») := by
  refine ⟨by decide, by decide, ?_⟩
  decide

/-- **C3**: the affix-attached anchor is computed (line 490) but only after
the `Wikilink` was constructed (line 475), so the emitted anchor for the
candidate `[[apple]]s` is `"apple"`, not the visual concatenation
`"apples"` that the attachment produces and then discards. -/
theorem c3_affix_anchor_discarded :
    (processCandidate (str "Page") (str "[[apple]]s x") [] ⟨0, 0, 0⟩ 0 ⟨0, 9⟩).1 =
      .emitted ⟨⟨str "apple", [], str "apple",
        str "---~--- incipit ---~---", 0, 0⟩, ⟨0, 10⟩⟩ ∧
    (wikilinkSearch (subtextOf (str "[[apple]]s x") 0 ⟨0, 9⟩)).map
        (fun m => attachedAnchor (str "[[apple]]s x") m (str "apple")) =
      some (str "apples") ∧
    str "apple" ≠ str "apples" := by
  refine ⟨by decide, by decide, by decide⟩

/-- **C4**: the emitted span is relative to the widened window, not to the
caller's source: for the document `"ab[[c]] x"` (no whitespace before the
candidate, so line 377 sets the left boundary to the candidate start, 2),
the matched total text is `"[[c]]"` but the yielded span is `(0, 5)`, and
`source[0:5] = "ab[[c"`. -/
theorem c4_window_relative_span :
    (processCandidate (str "Page") (str "ab[[c]] x") [] ⟨0, 0, 0⟩ 2 ⟨2, 7⟩).1 =
      .emitted ⟨⟨str "c", [], str "c", str "---~--- incipit ---~---", 0, 0⟩,
        ⟨0, 5⟩⟩ ∧
    subtextOf (str "ab[[c]] x") 2 ⟨2, 7⟩ = str "[[c]]" ∧
    pySliceInt (str "ab[[c]] x") 0 5 = str "ab[[c" ∧
    str "ab[[c" ≠ str "[[c]]" := by
  refine ⟨by decide, by decide, by decide, by decide⟩

/-- **C7 counterexample**: with deadline 0 the guard never arms a timer
(`signal.alarm(0)` cancels instead of arming), so an operation taking 5
time units returns its result even though the deadline elapsed first, and
no `CallTimeout` is raised. -/
theorem c7_zero_deadline_counterexample :
    wrapTimeout (⟨"func", 5, 42⟩ : Operation Nat) 0 ⟨some 7⟩ = (.ok 42, ⟨none⟩) ∧
    (0 : Nat) < 5 ∧
    ∀ e, (wrapTimeout (⟨"func", 5, 42⟩ : Operation Nat) 0 ⟨some 7⟩).1 ≠ .error e := by
  refine ⟨rfl, by decide, ?_⟩
  intro e h
  exact Except.noConfusion h

/-- **C7 (amended)**: for every call with a positive deadline, the guard
returns the operation's result when the call completes within the deadline,
raises `CallTimeout` carrying the operation's identity when the deadline
elapses first, and in either case leaves no armed timer behind. -/
theorem c7_guard_contract {α : Type} (op : Operation α) (t : Nat)
    (st : GuardState) (h : 0 < t) :
    (op.cost < t → wrapTimeout op t st = (.ok op.result, ⟨none⟩)) ∧
    (t ≤ op.cost →
      wrapTimeout op t st = (.error ⟨op.name ++ " timed out"⟩, ⟨none⟩)) := by
  have ht : ¬ t = 0 := by omega
  unfold wrapTimeout handlerRaise
  simp only [ht, if_false]
  constructor
  · intro hc
    have : ¬ t ≤ op.cost := by omega
    simp [this]
  · intro hc
    simp [hc]

/-- Witness for C7 (amended): deadline 3, one completing call (cost 1) and
one timed-out call (cost 9). -/
theorem c7_guard_contract_witness :
    wrapTimeout (⟨"f", 1, 42⟩ : Operation Nat) 3 ⟨none⟩ = (.ok 42, ⟨none⟩) ∧
    wrapTimeout (⟨"f", 9, 42⟩ : Operation Nat) 3 ⟨none⟩ =
      (.error ⟨"f timed out"⟩, ⟨none⟩) :=
  ⟨(c7_guard_contract (⟨"f", 1, 42⟩ : Operation Nat) 3 ⟨none⟩ (by decide)).1
      (by decide),
   (c7_guard_contract (⟨"f", 9, 42⟩ : Operation Nat) 3 ⟨none⟩ (by decide)).2
      (by decide)⟩

/-- **C10**: for a non-preamble section the memoized `full_body` is the body
wrapped by `level` equals characters around the name on its own leading
line, and a second access returns the cached value unchanged. -/
theorem c10_full_body_wrap (n : Str) (l : Nat) (b : Str) (h : 1 ≤ l) :
    (Section.fullBody (mkSection n l b)).1 =
      List.replicate l '=' ++ n ++ List.replicate l '=' ++ '\n' :: b ∧
    (Section.fullBody ((Section.fullBody (mkSection n l b)).2)).1 =
      (Section.fullBody (mkSection n l b)).1 := by
  have hl : l ≠ 0 := by omega
  constructor <;>
    simp [mkSection, Section.fullBody, Section.isPreamble, hl]

/-- Witness for C10 at `name = "A"`, `level = 2`, `body = "x"`. -/
theorem c10_full_body_wrap_witness :
    (Section.fullBody (mkSection (str "A") 2 (str "x"))).1 =
      List.replicate 2 '=' ++ str "A" ++ List.replicate 2 '=' ++ '\n' :: str "x" ∧
    (Section.fullBody ((Section.fullBody (mkSection (str "A") 2 (str "x"))).2)).1 =
      (Section.fullBody (mkSection (str "A") 2 (str "x"))).1 :=
  c10_full_body_wrap (str "A") 2 (str "x") (by decide)

/-- Once the grammar matched, the loop body emits exactly when the resolved
link is non-empty (line 472: `if not link: continue`), whatever the
anchor. -/
theorem processCandidate_grammar_match (pageTitle source : Str)
    (limits : List SectionLimits) (st : LoopState) (sp : Nat)
    (sm : SimpleMatch) (m : WMatch)
    (h : wikilinkSearch (subtextOf source sp sm) = some m) :
    (processCandidate pageTitle source limits st sp sm).1.isEmitted = true ↔
      (resolvedLinkTo pageTitle m.link).1 ≠ [] := by
  unfold processCandidate
  dsimp only
  rw [h]
  dsimp only
  rcases hrl : resolvedLinkTo pageTitle m.link with ⟨link, tosection⟩
  dsimp only
  rcases hao : attrOne limits st.lastSectionSeen (m.totalB : Int) with ⟨attr, lastSeen⟩
  dsimp only
  by_cases hl : link = []
  · simp [hl, Outcome.isEmitted]
  · simp [hl, Outcome.isEmitted]

/-- **C8 counterexample**: for the candidate `[[|yoda]]` the link resolves
empty but the anchor resolves to `"yoda"`; the claim requires such a
candidate to be emitted, yet the loop body drops it. -/
theorem c8_empty_link_counterexample :
    (processCandidate (str "Page") (str "[[|yoda]] x") [] ⟨0, 0, 0⟩ 0 ⟨0, 9⟩).1 =
      .droppedEmptyLink ∧
    (wikilinkSearch (subtextOf (str "[[|yoda]] x") 0 ⟨0, 9⟩)).map
        (fun m => resolvedAnchor m.anchor (resolvedLinkTo (str "Page") m.link).1) =
      some (str "yoda") ∧
    str "yoda" ≠ [] := by
  refine ⟨by decide, by decide, by decide⟩

/-- **C8 (amended)**: a grammar-matched candidate is dropped without
emission exactly when the resolved link (after trimming, the `#` split and
the page-title substitution) is empty — regardless of the anchor. -/
theorem c8_drop_iff_empty_link (pageTitle source : Str)
    (limits : List SectionLimits) (st : LoopState) (sp : Nat)
    (sm : SimpleMatch) (m : WMatch)
    (h : wikilinkSearch (subtextOf source sp sm) = some m) :
    ((processCandidate pageTitle source limits st sp sm).1 = .droppedEmptyLink ↔
      (resolvedLinkTo pageTitle m.link).1 = []) ∧
    ((processCandidate pageTitle source limits st sp sm).1.isEmitted = true ↔
      (resolvedLinkTo pageTitle m.link).1 ≠ []) := by
  refine ⟨?_, processCandidate_grammar_match pageTitle source limits st sp sm m h⟩
  unfold processCandidate
  dsimp only
  rw [h]
  dsimp only
  rcases hrl : resolvedLinkTo pageTitle m.link with ⟨link, tosection⟩
  dsimp only
  rcases hao : attrOne limits st.lastSectionSeen (m.totalB : Int) with ⟨attr, lastSeen⟩
  dsimp only
  by_cases hl : link = []
  · simp [hl]
  · simp [hl]

/-- Witness for C8 (amended) at the candidate `[[a]]` of `"[[a]] x"`. -/
theorem c8_drop_iff_empty_link_witness :
    (processCandidate (str "Page") (str "[[a]] x") [] ⟨0, 0, 0⟩ 0 ⟨0, 5⟩).1.isEmitted
      = true :=
  (c8_drop_iff_empty_link (str "Page") (str "[[a]] x") [] ⟨0, 0, 0⟩ 0 ⟨0, 5⟩
      ⟨0, 5, 0, 5, 0, 5, str "a", none⟩ (by decide)).2.mpr (by decide)

/-- The skip condition of the grammar-mismatch branch holds for every text:
`str.find` returns `-1` for an absent character and `-1` is truthy, so the
disjunction can only be falsy if every `find` returns 0 — impossible, since
the first character cannot equal two different characters at once. -/
theorem mismatchSkipCond_always (t : Str) : mismatchSkipCond t = true := by
  unfold mismatchSkipCond pyFindChar
  cases t with
  | nil => rfl
  | cons c rest =>
    by_cases hc : c = '|'
    · subst hc
      have h2 : pyFindCharAux '>' ('|' :: rest) = (pyFindCharAux '>' rest).map (· + 1) := by
        simp [pyFindCharAux]
      rw [h2]
      cases h3 : pyFindCharAux '>' rest with
      | none => simp [pyTruthyInt]
      | some i =>
        simp [pyTruthyInt]
        left; left; left; right
        omega
    · have h1 : pyFindCharAux '|' (c :: rest) = (pyFindCharAux '|' rest).map (· + 1) := by
        simp [pyFindCharAux, hc]
      rw [h1]
      cases h3 : pyFindCharAux '|' rest with
      | none => simp [pyTruthyInt]
      | some i =>
        simp [pyTruthyInt]
        left; left; left; left
        omega

set_option maxRecDepth 1000000 in
/-- **C5**: every grammar mismatch is skipped silently.  The skip condition
(`str.find` truthiness) holds for every text, so the fault branch is
unreachable; in particular the candidate `[[a^257]]` — whose bracket
contents contain none of `| < > { }` and whose window the grammar cannot
match (the `link` group is capped at 256 characters) — is skipped silently
instead of being surfaced as a structured fault (and the source's fault
branch is an interactive-debugger breakpoint, not a structured error). -/
theorem c5_mismatch_always_skipped :
    (∀ t : Str, mismatchSkipCond t = true) ∧
    findSimpleLinks longLinkDoc = [⟨0, 261⟩] ∧
    wikilinkSearch (subtextOf longLinkDoc 0 ⟨0, 261⟩) = none ∧
    ((simpleMatchText longLinkDoc ⟨0, 261⟩).all
      (fun c => !(c = '|' || c = '<' || c = '>' || c = '\x7b' || c = '\x7d'))) = true ∧
    (processCandidate (str "Page") longLinkDoc [] ⟨0, 0, 0⟩ 0 ⟨0, 261⟩).1 =
      .skippedMismatch := by
  have hs : wikilinkSearch (subtextOf longLinkDoc 0 ⟨0, 261⟩) = none := by decide
  refine ⟨mismatchSkipCond_always, by decide, hs, by decide, ?_⟩
  unfold processCandidate
  dsimp only
  rw [hs, mismatchSkipCond_always]
  rfl

/-! ### Structural facts about the header scan -/

/-- A successful `\\s*$` consumes at most `k` characters. -/
theorem wsBack_le (w : Str) : ∀ k r, wsBack w k = some r → r ≤ k := by
  intro k
  induction k with
  | zero =>
    intro r h
    simp only [wsBack] at h
    split at h
    · exact (Option.some.inj h) ▸ le_refl 0
    · exact Option.noConfusion h
  | succ k ih =>
    intro r h
    simp only [wsBack] at h
    split at h
    · exact (Option.some.inj h) ▸ le_refl _
    · exact le_trans (ih r h) (by omega)

/-- The whitespace run is bounded by the text length. -/
theorem wsRun_le (w : Str) : wsRun w ≤ w.length := by
  induction w with
  | nil => simp [wsRun]
  | cons c r ih =>
    simp only [wsRun, List.length_cons]
    split
    · omega
    · omega

/-- A successful trailing `\\s*$` consumes at most the whole text. -/
theorem trailingWs_le (w : Str) (r : Nat) (h : trailingWs w = some r) :
    r ≤ w.length :=
  le_trans (wsBack_le w _ r h) (wsRun_le w)

/-- A successful backreference needs `e` characters. -/
theorem hasEquals_le : ∀ (e : Nat) (v : Str), hasEquals e v = true → e ≤ v.length := by
  intro e
  induction e with
  | zero => intro v _; omega
  | succ e ih =>
    intro v h
    cases v with
    | nil => simp [hasEquals] at h
    | cons c r =>
      simp only [hasEquals, Bool.and_eq_true] at h
      have := ih r h.2
      simp only [List.length_cons]
      omega

/-- A successful name search consumes at least `1 + e` characters (name and
backreference) and at most the whole suffix. -/
theorem nameLoop_bounds (e : Nat) :
    ∀ v nm r, nameLoop e v = some (nm, r) → 1 + e ≤ r ∧ r ≤ v.length := by
  intro v
  induction v with
  | nil => intro nm r h; simp [nameLoop] at h
  | cons c v ih =>
    intro nm r h
    simp only [nameLoop] at h
    split at h
    · exact Option.noConfusion h
    · split at h
      case isTrue heq =>
        cases htr : trailingWs (v.drop e) with
        | some w =>
          rw [htr] at h
          obtain ⟨-, hr⟩ := Prod.mk.inj (Option.some.inj h)
          have hw := trailingWs_le _ _ htr
          have hd : (v.drop e).length = v.length - e := List.length_drop e v
          have he := hasEquals_le e v heq
          simp only [List.length_cons]
          omega
        | none =>
          rw [htr] at h
          cases hnl : nameLoop e v with
          | none => rw [hnl] at h; exact Option.noConfusion h
          | some p =>
            rw [hnl] at h
            obtain ⟨nm2, r2⟩ := p
            obtain ⟨-, hr⟩ := Prod.mk.inj (Option.some.inj h)
            have := ih nm2 r2 hnl
            simp only [List.length_cons]
            omega
      case isFalse =>
        cases hnl : nameLoop e v with
        | none => rw [hnl] at h; exact Option.noConfusion h
        | some p =>
          rw [hnl] at h
          obtain ⟨nm2, r2⟩ := p
          obtain ⟨-, hr⟩ := Prod.mk.inj (Option.some.inj h)
          have := ih nm2 r2 hnl
          simp only [List.length_cons]
          omega

/-- A successful header attempt has positive level, a total length of at
least 3 and at most the remaining suffix. -/
theorem tryEquals_bounds (u : Str) :
    ∀ e0 e c nm, tryEquals u e0 = some (e, c, nm) →
      1 ≤ e ∧ 3 ≤ c ∧ c ≤ u.length := by
  intro e0
  induction e0 with
  | zero => intro e c nm h; simp [tryEquals] at h
  | succ e0 ih =>
    intro e c nm h
    simp only [tryEquals] at h
    cases hnl : nameLoop (e0 + 1) (u.drop (e0 + 1)) with
    | some p =>
      rw [hnl] at h
      obtain ⟨nm2, r⟩ := p
      obtain ⟨he, h2⟩ := Prod.mk.inj (Option.some.inj h)
      obtain ⟨hc, -⟩ := Prod.mk.inj h2
      have hb := nameLoop_bounds (e0 + 1) (u.drop (e0 + 1)) nm2 r hnl
      have hd : (u.drop (e0 + 1)).length = u.length - (e0 + 1) :=
        List.length_drop (e0 + 1) u
      omega
    | none =>
      rw [hnl] at h
      exact ih e c nm h

/-- A successful header match at `p` starts at `p`, spans at least three
characters, and ends inside the document. -/
theorem tryHeaderAt_spec (s : Str) (p : Nat) (m : HeaderMatch)
    (h : tryHeaderAt s p = some m) :
    m.start = p ∧ p + 3 ≤ m.«end» ∧ m.«end» ≤ s.length ∧ 1 ≤ m.level := by
  unfold tryHeaderAt at h
  dsimp only at h
  cases hte : tryEquals (s.drop p) (eqRun (s.drop p)) with
  | none => rw [hte] at h; exact Option.noConfusion h
  | some t =>
    rw [hte] at h
    obtain ⟨e, c, nm⟩ := t
    have hb := tryEquals_bounds (s.drop p) _ e c nm hte
    have hd : (s.drop p).length = s.length - p := List.length_drop p s
    cases Option.some.inj h
    refine ⟨rfl, ?_, ?_, ?_⟩ <;> dsimp only <;> omega

/-- `HeadersOK` weakens to an earlier scan position. -/
theorem headersOK_mono (s : Str) :
    ∀ (ms : List HeaderMatch) (p q : Nat), q ≤ p → HeadersOK s p ms →
      HeadersOK s q ms := by
  intro ms
  cases ms with
  | nil => intro p q _ _; trivial
  | cons m rest =>
    intro p q hq h
    simp only [HeadersOK] at h ⊢
    exact ⟨by omega, h.2.1, h.2.2.1, h.2.2.2.1, h.2.2.2.2⟩

/-- `HeadersOK` tightens to the start of the first match. -/
theorem headersOK_bump (s : Str) (p : Nat) (m : HeaderMatch)
    (rest : List HeaderMatch) (h : HeadersOK s p (m :: rest)) :
    HeadersOK s m.start (m :: rest) := by
  simp only [HeadersOK] at h ⊢
  exact ⟨le_refl _, h.2.1, h.2.2.1, h.2.2.2.1, h.2.2.2.2⟩

/-- The scan from position `p` produces matches satisfying `HeadersOK`. -/
theorem findHeadersAux_ok (s : Str) :
    ∀ fuel p, HeadersOK s p (findHeadersAux s fuel p) := by
  intro fuel
  induction fuel with
  | zero => intro p; simp [findHeadersAux, HeadersOK]
  | succ fuel ih =>
    intro p
    simp only [findHeadersAux]
    split
    · simp [HeadersOK]
    · split
      · cases hm : tryHeaderAt s p with
        | some m =>
          obtain ⟨h1, h2, h3, h4⟩ := tryHeaderAt_spec s p m hm
          simp only [HeadersOK]
          exact ⟨by omega, by omega, h3, h4, ih m.«end»⟩
        | none => exact headersOK_mono s _ (p + 1) p (by omega) (ih (p + 1))
      · exact headersOK_mono s _ (p + 1) p (by omega) (ih (p + 1))

/-- The header matches of a document satisfy `HeadersOK` from position 0. -/
theorem findHeaders_ok (s : Str) : HeadersOK s 0 (findHeaders s) :=
  findHeadersAux_ok s (s.length + 1) 0

/-- Every match of an `OK` list starts at or after the scan position. -/
theorem headersOK_starts (s : Str) :
    ∀ (hs : List HeaderMatch) (p : Nat), HeadersOK s p hs →
      ∀ m ∈ hs, p ≤ m.start := by
  intro hs
  induction hs with
  | nil => intro p _ m hm; cases hm
  | cons m rest ih =>
    intro p h m2 hm2
    simp only [HeadersOK] at h
    rcases List.mem_cons.1 hm2 with rfl | hm2
    · exact h.1
    · have := ih m.«end» h.2.2.2.2 m2 hm2
      omega

/-! ### Span structure of the section list -/

/-- Every span produced from an `OK` header list begins at or after the
scan position, and carries a positive level. -/
theorem sectionsFrom_begin_lb (s : Str) :
    ∀ (hs : List HeaderMatch) (p : Nat), HeadersOK s p hs →
      ∀ cr ∈ sectionsFrom s hs,
        (p : Int) ≤ cr.span.begin ∧ 1 ≤ cr.data.level := by
  intro hs
  induction hs with
  | nil => intro p _ cr hcr; simp [sectionsFrom] at hcr
  | cons m rest ih =>
    intro p h cr hcr
    simp only [HeadersOK] at h
    simp only [sectionsFrom, List.mem_cons] at hcr
    rcases hcr with rfl | hcr
    · constructor
      · dsimp only
        exact_mod_cast h.1
      · dsimp only [mkSection]
        exact h.2.2.2.1
    · have := ih m.«end» h.2.2.2.2 cr hcr
      have hse : (p : Int) ≤ (m.«end» : Int) := by
        have h1 := h.1
        have h2 := h.2.1
        omega
      exact ⟨le_trans hse this.1, this.2⟩

/-- The spans produced from an `OK` header list are ordered: each span ends
at or before the next one begins. -/
theorem sectionsFrom_pairwise (s : Str) :
    ∀ (hs : List HeaderMatch) (p : Nat), HeadersOK s p hs →
      List.Pairwise
        (fun a b : CaptureResult Section => a.span.«end» ≤ b.span.begin)
        (sectionsFrom s hs) := by
  intro hs
  induction hs with
  | nil => intro p _; simp [sectionsFrom]
  | cons m rest ih =>
    intro p h
    simp only [HeadersOK] at h
    simp only [sectionsFrom]
    refine List.Pairwise.cons ?_ (ih m.«end» h.2.2.2.2)
    intro cr hcr
    cases rest with
    | nil => simp [sectionsFrom] at hcr
    | cons m2 rest2 =>
      have hb := sectionsFrom_begin_lb s (m2 :: rest2) m2.start
        (headersOK_bump s m.«end» m2 rest2 h.2.2.2.2) cr hcr
      dsimp only
      have := hb.1
      push_cast at this ⊢
      omega

/-- Unfolding `coveredBy` over a cons cell. -/
theorem coveredBy_cons (a : CaptureResult Section) (l : List (CaptureResult Section))
    (x : Int) :
    coveredBy (a :: l) x ↔
      (a.span.begin ≤ x ∧ x < a.span.«end») ∨ coveredBy l x := by
  unfold coveredBy
  simp [List.mem_cons, or_and_right, exists_or]

/-- `coveredBy` over the empty list is false. -/
theorem coveredBy_nil (x : Int) : ¬ coveredBy [] x := by
  rintro ⟨cr, hcr, -⟩
  cases hcr

/-- Coverage of the header-driven section spans: an offset is covered
exactly when it lies between the first header start and the document end
and is not the offset directly before a later header (the one-character
newline gap). -/
theorem sectionsFrom_cov (s : Str) :
    ∀ (rest : List HeaderMatch) (m : HeaderMatch) (p : Nat),
      HeadersOK s p (m :: rest) → ∀ x : Int,
      (coveredBy (sectionsFrom s (m :: rest)) x ↔
        ((m.start : Int) ≤ x ∧ x < (s.length : Int) ∧
          ∀ m2 ∈ rest, x ≠ (m2.start : Int) - 1)) := by
  intro rest
  induction rest with
  | nil =>
    intro m p h x
    simp only [HeadersOK] at h
    rw [show sectionsFrom s [m] =
        [⟨mkSection m.name m.level
            (pySliceInt s ((m.«end» : Int) + 1) ((s.length : Int))),
          ⟨(m.start : Int), (s.length : Int)⟩⟩] from rfl,
      coveredBy_cons]
    constructor
    · rintro (⟨h1, h2⟩ | hc)
      · refine ⟨h1, h2, ?_⟩
        intro m2 hm2
        cases hm2
      · exact absurd hc (coveredBy_nil x)
    · rintro ⟨h1, h2, -⟩
      exact Or.inl ⟨h1, h2⟩
  | cons m2 rest2 ih =>
    intro m p h x
    simp only [HeadersOK] at h
    obtain ⟨hp, h3, hlen, hlev, h21, h23, h2len, h2lev, h2rest⟩ := h
    have hOK2 : HeadersOK s m.«end» (m2 :: rest2) := by
      simp only [HeadersOK]
      exact ⟨h21, h23, h2len, h2lev, h2rest⟩
    have hIH := ih m2 m.«end» hOK2 x
    have hstarts : ∀ m3 ∈ rest2, m2.«end» ≤ m3.start :=
      headersOK_starts s rest2 m2.«end» h2rest
    rw [show sectionsFrom s (m :: m2 :: rest2) =
        ⟨mkSection m.name m.level
            (pySliceInt s ((m.«end» : Int) + 1) ((m2.start : Int) - 1)),
          ⟨(m.start : Int), (m2.start : Int) - 1⟩⟩ ::
          sectionsFrom s (m2 :: rest2) from rfl,
      coveredBy_cons]
    constructor
    · rintro (⟨h1, h2⟩ | hc)
      · have h1x : (m.start : Int) ≤ x := h1
        have h2x : x < (m2.start : Int) - 1 := h2
        refine ⟨h1x, by omega, ?_⟩
        intro m3 hm3
        rcases List.mem_cons.1 hm3 with rfl | hm3
        · omega
        · have hst := hstarts m3 hm3
          omega
      · obtain ⟨ha, hb, hgaps⟩ := hIH.1 hc
        have hms : (m.start : Int) ≤ (m2.start : Int) := by omega
        refine ⟨by omega, hb, ?_⟩
        intro m3 hm3
        rcases List.mem_cons.1 hm3 with rfl | hm3
        · omega
        · exact hgaps m3 hm3
    · rintro ⟨ha, hb, hgaps⟩
      by_cases hcase : x < (m2.start : Int) - 1
      · exact Or.inl ⟨ha, hcase⟩
      · have hx2 : (m2.start : Int) ≤ x := by
          have := hgaps m2 (List.mem_cons_self m2 rest2)
          omega
        refine Or.inr (hIH.2 ⟨hx2, hb, ?_⟩)
        intro m3 hm3
        exact hgaps m3 (List.mem_cons_of_mem m2 hm3)

/-- Every level of an `OK` header list is positive. -/
theorem headersOK_levels (s : Str) :
    ∀ (hs : List HeaderMatch) (p : Nat), HeadersOK s p hs →
      ∀ m ∈ hs, 1 ≤ m.level := by
  intro hs
  induction hs with
  | nil => intro p _ m hm; cases hm
  | cons m rest ih =>
    intro p h m2 hm2
    simp only [HeadersOK] at h
    rcases List.mem_cons.1 hm2 with rfl | hm2
    · exact h.2.2.2.1
    · exact ih m.«end» h.2.2.2.2 m2 hm2

/-- Each produced section corresponds to a header match with the same level
and begin offset. -/
theorem sectionsFrom_mem_begin (s : Str) :
    ∀ (hs : List HeaderMatch), ∀ cr ∈ sectionsFrom s hs,
      ∃ m ∈ hs, cr.data.level = m.level ∧ cr.span.begin = (m.start : Int) := by
  intro hs
  induction hs with
  | nil => intro cr hcr; simp [sectionsFrom] at hcr
  | cons m rest ih =>
    intro cr hcr
    simp only [sectionsFrom, List.mem_cons] at hcr
    rcases hcr with rfl | hcr
    · exact ⟨m, List.mem_cons_self m rest, rfl, rfl⟩
    · obtain ⟨m2, hm2, h1, h2⟩ := ih cr hcr
      exact ⟨m2, List.mem_cons_of_mem m hm2, h1, h2⟩

/-- Each header match corresponds to a produced section with the same
level and begin offset. -/
theorem sectionsFrom_begin_mem (s : Str) :
    ∀ (hs : List HeaderMatch), ∀ m ∈ hs,
      ∃ cr ∈ sectionsFrom s hs,
        cr.data.level = m.level ∧ cr.span.begin = (m.start : Int) := by
  intro hs
  induction hs with
  | nil => intro m hm; cases hm
  | cons m0 rest ih =>
    intro m hm
    rcases List.mem_cons.1 hm with rfl | hm
    · cases rest with
      | nil => exact ⟨_, List.mem_cons_self _ _, rfl, rfl⟩
      | cons m2 rest2 => exact ⟨_, List.mem_cons_self _ _, rfl, rfl⟩
    · obtain ⟨cr, hcr, h1, h2⟩ := ih m hm
      refine ⟨cr, ?_, h1, h2⟩
      simp only [sectionsFrom, List.mem_cons]
      exact Or.inr hcr

/-- `sections(source, include_preamble=True)`, decomposed. -/
theorem sectionsPy_true (source : Str) :
    sectionsPy source true =
      ⟨mkSection [] 0 (pySliceInt source 0 (preEnd source)),
        ⟨0, preEnd source⟩⟩ ::
        sectionsFrom source (findHeaders source) := rfl

/-- **C1 counterexample**: for the document `"a\n==H==\nb"` the yielded
spans are `(0, 1)` and `(2, 9)`: offset 1 (the newline before the header)
is covered by no span, so the spans do not partition `[0, 9)`. -/
theorem c1_counterexample :
    (sectionsPy (str "a\n==H==\nb") true).map (fun cr => cr.span) =
      [⟨0, 1⟩, ⟨2, 9⟩] ∧
    (0 : Int) ≤ 1 ∧ (1 : Int) < (str "a\n==H==\nb").length ∧
    ¬ ∃ cr ∈ sectionsPy (str "a\n==H==\nb") true,
        cr.span.begin ≤ 1 ∧ (1 : Int) < cr.span.«end» := by
  refine ⟨by decide, by decide, by decide, ?_⟩
  decide

/-- **C1 (amended)**: the spans yielded by
`sections(source, include_preamble=True)` are in document order and
pairwise non-overlapping (each span ends at or before the next begins), and
they cover exactly `[0, len(source))` minus the single offset directly
before the begin of each non-preamble span (the newline character the
segmenter excludes before each header). -/
theorem c1_sections_partition_with_gaps (source : Str) :
    List.Pairwise
      (fun a b : CaptureResult Section => a.span.«end» ≤ b.span.begin)
      (sectionsPy source true) ∧
    ∀ x : Int,
      ((∃ cr ∈ sectionsPy source true,
          cr.span.begin ≤ x ∧ x < cr.span.«end») ↔
        (0 ≤ x ∧ x < (source.length : Int) ∧
          ¬ ∃ cr ∈ sectionsPy source true,
              1 ≤ cr.data.level ∧ x = cr.span.begin - 1)) := by
  have hok := findHeaders_ok source
  rw [sectionsPy_true]
  cases hhs : findHeaders source with
  | nil =>
    have hpre : preEnd source = (source.length : Int) := by
      unfold preEnd
      rw [hhs]
    rw [hpre]
    constructor
    · simp [sectionsFrom]
    · intro x
      constructor
      · rintro ⟨cr, hcr, h1, h2⟩
        rcases List.mem_cons.1 hcr with rfl | hcr
        · have h1x : (0 : Int) ≤ x := h1
          have h2x : x < (source.length : Int) := h2
          refine ⟨h1x, h2x, ?_⟩
          rintro ⟨cr2, hcr2, hlev, -⟩
          rcases List.mem_cons.1 hcr2 with rfl | hcr2
          · exact absurd hlev (by dsimp only [mkSection]; omega)
          · simp [sectionsFrom] at hcr2
        · simp [sectionsFrom] at hcr
      · rintro ⟨h1, h2, -⟩
        exact ⟨_, List.mem_cons_self _ _, h1, h2⟩
  | cons m rest =>
    rw [hhs] at hok
    have hpre : preEnd source = (m.start : Int) - 1 := by
      unfold preEnd
      rw [hhs]
    rw [hpre]
    have hokb : HeadersOK source m.start (m :: rest) :=
      headersOK_bump source 0 m rest hok
    have hbl := sectionsFrom_begin_lb source (m :: rest) m.start hokb
    have hcov := sectionsFrom_cov source rest m 0 hok
    have hc := hok
    simp only [HeadersOK] at hc
    obtain ⟨-, h3, hlen, hlev, hrest⟩ := hc
    have hstarts : ∀ m2 ∈ rest, m.«end» ≤ m2.start :=
      headersOK_starts source rest m.«end» hrest
    constructor
    · refine List.Pairwise.cons ?_ (sectionsFrom_pairwise source (m :: rest) 0 hok)
      intro cr hcr
      have hb := (hbl cr hcr).1
      have hx : (m.start : Int) - 1 ≤ cr.span.begin := by omega
      exact hx
    · intro x
      constructor
      · rintro ⟨cr, hcr, hx1, hx2⟩
        rcases List.mem_cons.1 hcr with rfl | hcr
        · have h0x : (0 : Int) ≤ x := hx1
          have h1x : x < (m.start : Int) - 1 := hx2
          refine ⟨h0x, by omega, ?_⟩
          rintro ⟨cr2, hcr2, hlev2, hxeq⟩
          rcases List.mem_cons.1 hcr2 with rfl | hcr2
          · have : (1 : Nat) ≤ 0 := hlev2
            omega
          · obtain ⟨m2, hm2, -, hb⟩ := sectionsFrom_mem_begin source (m :: rest) cr2 hcr2
            rw [hb] at hxeq
            rcases List.mem_cons.1 hm2 with rfl | hm2
            · omega
            · have := hstarts m2 hm2
              omega
        · obtain ⟨ha, hblen, hgaps⟩ := (hcov x).1 ⟨cr, hcr, hx1, hx2⟩
          refine ⟨by omega, hblen, ?_⟩
          rintro ⟨cr2, hcr2, hlev2, hxeq⟩
          rcases List.mem_cons.1 hcr2 with rfl | hcr2
          · have : (1 : Nat) ≤ 0 := hlev2
            omega
          · obtain ⟨m2, hm2, -, hb⟩ := sectionsFrom_mem_begin source (m :: rest) cr2 hcr2
            rw [hb] at hxeq
            rcases List.mem_cons.1 hm2 with rfl | hm2
            · omega
            · exact (hgaps m2 hm2) hxeq
      · rintro ⟨h0x, hxlen, hngap⟩
        by_cases hcase : x < (m.start : Int) - 1
        · exact ⟨_, List.mem_cons_self _ _, h0x, hcase⟩
        · have hne : x ≠ (m.start : Int) - 1 := by
            intro hxeq
            apply hngap
            obtain ⟨cr, hcr, hl, hb⟩ :=
              sectionsFrom_begin_mem source (m :: rest) m (List.mem_cons_self m rest)
            exact ⟨cr, List.mem_cons_of_mem _ hcr,
              by rw [hl]; exact hlev, by rw [hb]; exact hxeq⟩
          have hge : (m.start : Int) ≤ x := by omega
          have hgaps : ∀ m2 ∈ rest, x ≠ (m2.start : Int) - 1 := by
            intro m2 hm2 hxeq
            apply hngap
            obtain ⟨cr, hcr, hl, hb⟩ :=
              sectionsFrom_begin_mem source (m :: rest) m2 (List.mem_cons_of_mem m hm2)
            have hlev2 : 1 ≤ m2.level :=
              headersOK_levels source (m :: rest) 0 hok m2 (List.mem_cons_of_mem m hm2)
            exact ⟨cr, List.mem_cons_of_mem _ hcr,
              by rw [hl]; exact hlev2, by rw [hb]; exact hxeq⟩
          obtain ⟨cr, hcr, hh⟩ := (hcov x).2 ⟨hge, hxlen, hgaps⟩
          exact ⟨cr, List.mem_cons_of_mem _ hcr, hh⟩

/-! ### The attribution scan -/

/-- `get?` through `drop`. -/
theorem dropGet {α : Type} : ∀ (l : List α) (n i : Nat),
    (l.drop n).get? i = l.get? (n + i) := by
  intro l
  induction l with
  | nil => intro n i; simp
  | cons a l ih =>
    intro n i
    cases n with
    | zero => simp
    | succ n =>
      have h1 : (a :: l).drop (n + 1) = l.drop n := rfl
      have h2 : (a :: l).get? (n + 1 + i) = l.get? (n + i) := by
        have : n + 1 + i = (n + i) + 1 := by omega
        rw [this]
        rfl
      rw [h1, h2, ih n i]

/-- Membership gives an index. -/
theorem memGet {α : Type} : ∀ (l : List α) (a : α), a ∈ l →
    ∃ n, l.get? n = some a := by
  intro l
  induction l with
  | nil => intro a ha; cases ha
  | cons b l ih =>
    intro a ha
    rcases List.mem_cons.1 ha with rfl | ha
    · exact ⟨0, rfl⟩
    · obtain ⟨n, hn⟩ := ih a ha
      exact ⟨n + 1, hn⟩

/-- Membership in a dropped list implies membership. -/
theorem dropSub {α : Type} : ∀ (l : List α) (n : Nat) (a : α),
    a ∈ l.drop n → a ∈ l := by
  intro l
  induction l with
  | nil => intro n a ha; rw [List.drop_nil] at ha; cases ha
  | cons b l ih =>
    intro n a ha
    cases n with
    | zero => exact ha
    | succ n => exact List.mem_cons_of_mem b (ih n a ha)

/-- The scan returns the section at index `j` when that section contains
the offset and no earlier scanned section does. -/
theorem attrScan_spec : ∀ (L : List SectionLimits) (t : Int) (j : Nat)
    (sec : SectionLimits), L.get? j = some sec → sec.begin ≤ t →
    t ≤ sec.«end» →
    (∀ i a, i < j → L.get? i = some a → ¬(a.begin ≤ t ∧ t ≤ a.«end»)) →
    attrScan L t = some sec := by
  intro L
  induction L with
  | nil => intro t j sec h; cases j <;> exact Option.noConfusion h
  | cons b L ih =>
    intro t j sec hj hb he hno
    cases j with
    | zero =>
      have hbs : b = sec := Option.some.inj hj
      subst hbs
      simp only [attrScan]
      rw [if_pos ⟨hb, he⟩]
    | succ j =>
      have hb0 : ¬(b.begin ≤ t ∧ t ≤ b.«end») := hno 0 b (by omega) rfl
      simp only [attrScan]
      rw [if_neg hb0]
      exact ih t j sec hj hb he
        (fun i a hi hg => hno (i + 1) a (by omega) hg)

/-- The scan returns `none` when no scanned section contains the offset. -/
theorem attrScan_none : ∀ (L : List SectionLimits) (t : Int),
    (∀ a ∈ L, ¬(a.begin ≤ t ∧ t ≤ a.«end»)) → attrScan L t = none := by
  intro L
  induction L with
  | nil => intro t _; rfl
  | cons b L ih =>
    intro t hall
    simp only [attrScan]
    rw [if_neg (hall b (List.mem_cons_self b L))]
    exact ih t (fun a ha => hall a (List.mem_cons_of_mem b ha))

/-- A successful scan returns a member section containing the offset. -/
theorem attrScan_sound : ∀ (L : List SectionLimits) (t : Int)
    (sec : SectionLimits), attrScan L t = some sec →
    sec ∈ L ∧ sec.begin ≤ t ∧ t ≤ sec.«end» := by
  intro L
  induction L with
  | nil => intro t sec h; exact Option.noConfusion h
  | cons b L ih =>
    intro t sec h
    simp only [attrScan] at h
    split at h
    case isTrue hc =>
      cases Option.some.inj h
      exact ⟨List.mem_cons_self b L, hc⟩
    case isFalse =>
      obtain ⟨hm, hc⟩ := ih t sec h
      exact ⟨List.mem_cons_of_mem b hm, hc⟩

/-- When the offset lies in the section at index `j` (at or past the resume
index, which the invariant guarantees), the attribution returns that
section's data and resumes at `j`. -/
theorem attrOne_hit (limits : List SectionLimits) (hWF : LimitsWF limits)
    (seen : Nat) (t : Int) (hinv : AttrInv limits seen t) (j : Nat)
    (sec : SectionLimits) (hj : limits.get? j = some sec)
    (hb : sec.begin ≤ t) (he : t ≤ sec.«end») :
    attrOne limits seen t = (⟨sec.number, sec.name, sec.level⟩, j) ∧
      sec.number = j + 1 := by
  obtain ⟨hWF1, hWF3⟩ := hWF
  have hnum := (hWF1 j sec hj).1
  have hsj : seen ≤ j := by
    by_contra hlt
    push_neg at hlt
    exact absurd he (not_le.2 (hinv j sec hlt hj))
  have hscan : attrScan (limits.drop seen) t = some sec := by
    apply attrScan_spec (limits.drop seen) t (j - seen) sec
    · rw [dropGet]
      have hji : seen + (j - seen) = j := by omega
      rw [hji]
      exact hj
    · exact hb
    · exact he
    · intro i a hi hg
      rw [dropGet] at hg
      have hij : seen + i < j := by omega
      have := hWF3 (seen + i) j a sec hij hg hj
      intro hcontra
      omega
  unfold attrOne
  rw [hscan]
  dsimp only
  rw [hnum]
  constructor
  · have hpos : j + 1 > 0 := by omega
    rw [if_pos hpos]
    have : j + 1 - 1 = j := by omega
    rw [this]
  · rfl

/-- When the offset precedes the first section's begin, the attribution
returns the incipit sentinel and leaves the resume index unchanged. -/
theorem attrOne_before (limits : List SectionLimits) (hWF : LimitsWF limits)
    (seen : Nat) (t : Int) (h0 : SectionLimits)
    (hh0 : limits.head? = some h0) (ht : t < h0.begin) :
    attrOne limits seen t = (⟨0, str "---~--- incipit ---~---", 0⟩, seen) := by
  obtain ⟨hWF1, hWF3⟩ := hWF
  have hg0 : limits.get? 0 = some h0 := by
    cases limits with
    | nil => exact Option.noConfusion hh0
    | cons b L => exact hh0
  have hall : ∀ a ∈ limits.drop seen, ¬(a.begin ≤ t ∧ t ≤ a.«end») := by
    intro a ha hcontra
    obtain ⟨j, hj⟩ := memGet limits a (dropSub limits seen a ha)
    cases j with
    | zero =>
      cases Option.some.inj (hg0 ▸ hj)
      omega
    | succ j =>
      have hlt := hWF3 0 (j + 1) h0 a (by omega) hg0 hj
      have hbe := (hWF1 0 h0 hg0).2
      omega
  unfold attrOne
  rw [attrScan_none _ _ hall]

/-- Processing an offset preserves the resume-scan invariant for every
later (or equal) offset. -/
theorem attrInv_step (limits : List SectionLimits) (hWF : LimitsWF limits)
    (seen : Nat) (t t2 : Int) (htt : t ≤ t2) (hinv : AttrInv limits seen t) :
    AttrInv limits (attrOne limits seen t).2 t2 := by
  unfold attrOne
  cases hscan : attrScan (limits.drop seen) t with
  | none =>
    dsimp only
    intro i a hi hg
    exact lt_of_lt_of_le (hinv i a hi hg) htt
  | some sec =>
    dsimp only
    obtain ⟨hmem, hb, he⟩ := attrScan_sound _ _ _ hscan
    obtain ⟨j, hj⟩ := memGet limits sec (dropSub limits seen sec hmem)
    have hnum := (hWF.1 j sec hj).1
    rw [hnum]
    have hpos : j + 1 > 0 := by omega
    rw [if_pos hpos]
    intro i a hi hg
    have hij : i < j := by omega
    have := hWF.2 i j a sec hij hg hj
    omega

/-- Structure of the positional index built from the header sections:
numbers count up from `idx`, every range spans at least two offsets and
begins at or after the scan position, and ranges are strictly ordered. -/
theorem limitsFrom_facts (s : Str) :
    ∀ (hs : List HeaderMatch) (p idx : Nat), HeadersOK s p hs →
      (∀ j sec, (sectionsLimitsFrom idx (sectionsFrom s hs)).get? j = some sec →
        sec.number = idx + j ∧ sec.begin + 2 ≤ sec.«end» ∧
          ((p : Int) ≤ sec.begin)) ∧
      (∀ i j a b, i < j →
        (sectionsLimitsFrom idx (sectionsFrom s hs)).get? i = some a →
        (sectionsLimitsFrom idx (sectionsFrom s hs)).get? j = some b →
        a.«end» < b.begin) := by
  intro hs
  induction hs with
  | nil =>
    intro p idx _
    constructor
    · intro j sec h
      cases j <;> exact Option.noConfusion h
    · intro i j a b hij ha hb
      cases i <;> exact Option.noConfusion ha
  | cons m rest ih =>
    intro p idx h
    have hc := h
    simp only [HeadersOK] at hc
    obtain ⟨hp, h3, hlen, hlev, hrest⟩ := hc
    cases rest with
    | nil =>
      constructor
      · intro j sec hj
        cases j with
        | zero =>
          cases Option.some.inj hj
          refine ⟨?_, ?_, ?_⟩ <;> dsimp only <;> omega
        | succ j => cases j <;> exact Option.noConfusion hj
      · intro i j a b hij ha hb
        cases j with
        | zero => omega
        | succ j => cases j <;> exact Option.noConfusion hb
    | cons m2 rest2 =>
      have hc2 := hrest
      simp only [HeadersOK] at hc2
      obtain ⟨h21, h23, h2len, h2lev, h2rest⟩ := hc2
      have hOK2 : HeadersOK s m2.start (m2 :: rest2) :=
        headersOK_bump s m.«end» m2 rest2 hrest
      have hIH := ih m2.start (idx + 1) hOK2
      constructor
      · intro j sec hj
        cases j with
        | zero =>
          cases Option.some.inj hj
          refine ⟨?_, ?_, ?_⟩ <;> dsimp only <;> omega
        | succ j =>
          obtain ⟨hn, hbe, hlb⟩ := hIH.1 j sec hj
          refine ⟨by omega, hbe, ?_⟩
          have hpm : p ≤ m2.start := by omega
          omega
      · intro i j a b hij ha hb
        cases i with
        | zero =>
          cases Option.some.inj ha
          cases j with
          | zero => omega
          | succ j =>
            have hlb := (hIH.1 j b hb).2.2
            dsimp only
            omega
        | succ i =>
          cases j with
          | zero => omega
          | succ j => exact hIH.2 i j a b (by omega) ha hb

/-- With `include_preamble=False` the section list is exactly the
header-driven list, and the positional index numbers it from 1. -/
theorem sectionsLimits_eq (source : Str) :
    sectionsLimits (sectionsPy source false) =
      sectionsLimitsFrom 1 (sectionsFrom source (findHeaders source)) := rfl

/-- The positional index built from `sections(source, False)` is
well-formed. -/
theorem limitsWF_sections (source : Str) :
    LimitsWF (sectionsLimits (sectionsPy source false)) := by
  rw [sectionsLimits_eq]
  have hfacts := limitsFrom_facts source (findHeaders source) 0 1
    (findHeaders_ok source)
  constructor
  · intro j sec hj
    obtain ⟨hn, hbe, -⟩ := hfacts.1 j sec hj
    exact ⟨by omega, hbe⟩
  · exact hfacts.2

/-- The attribution fold, element by element: under the resume invariant
for the next offset, a non-decreasing offset list is attributed correctly —
offsets before the first section get the sentinel 0, and offsets inside the
section at index `j` get number `j + 1`. -/
theorem attrAll_spec (limits : List SectionLimits) (hWF : LimitsWF limits) :
    ∀ (ts : List Int) (seen : Nat),
      List.Chain' (fun a b : Int => a ≤ b) ts →
      (∀ t0, ts.head? = some t0 → AttrInv limits seen t0) →
      ∀ i t, ts.get? i = some t →
        (∀ h0, limits.head? = some h0 → t < h0.begin →
          (attrAll limits seen ts).get? i = some 0) ∧
        (∀ j sec, limits.get? j = some sec → sec.begin ≤ t →
          t < sec.«end» →
          (attrAll limits seen ts).get? i = some (j + 1)) := by
  intro ts
  induction ts with
  | nil =>
    intro seen _ _ i t ht
    cases i <;> exact Option.noConfusion ht
  | cons t0 ts ih =>
    intro seen hchain hinv i t ht
    have hinv0 : AttrInv limits seen t0 := hinv t0 rfl
    have hexp : attrAll limits seen (t0 :: ts) =
        (attrOne limits seen t0).1.number ::
          attrAll limits (attrOne limits seen t0).2 ts := rfl
    cases i with
    | zero =>
      obtain rfl : t0 = t := Option.some.inj ht
      constructor
      · intro h0 hh0 hlt
        rw [hexp, attrOne_before limits hWF seen t0 h0 hh0 hlt]
        rfl
      · intro j sec hj hb he
        obtain ⟨hone, hnum⟩ :=
          attrOne_hit limits hWF seen t0 hinv0 j sec hj hb (le_of_lt he)
        rw [hexp, hone]
        show some sec.number = some (j + 1)
        rw [hnum]
    | succ i =>
      have hchain2 : List.Chain' (fun a b : Int => a ≤ b) ts := hchain.tail
      have hinv2 : ∀ t1, ts.head? = some t1 →
          AttrInv limits (attrOne limits seen t0).2 t1 := by
        intro t1 hh
        cases ts with
        | nil => exact Option.noConfusion hh
        | cons t1x tsx =>
          cases Option.some.inj hh
          exact attrInv_step limits hWF seen t0 t1
            (List.chain'_cons.1 hchain).1 hinv0
      have hrec := ih (attrOne limits seen t0).2 hchain2 hinv2 i t ht
      constructor
      · intro h0 hh0 hlt
        rw [hexp]
        exact hrec.1 h0 hh0 hlt
      · intro j sec hj hb he
        rw [hexp]
        exact hrec.2 j sec hj hb he

/-- **C9**: with the positional index built from `sections(source, False)`
and matches processed in non-decreasing offset order from the initial
resume index 0, an offset that precedes the first section's begin (the
first header's start) is attributed the sentinel number 0, and an offset
inside the section at 0-based index `j` (1-based position `j + 1`) is
attributed exactly `j + 1`, wherever the monotonic resume scan left off. -/
theorem c9_section_attribution (source : Str) (ts : List Int)
    (hts : List.Chain' (fun a b : Int => a ≤ b) ts) (i : Nat) (t : Int)
    (ht : ts.get? i = some t) :
    (∀ h0, (sectionsLimits (sectionsPy source false)).head? = some h0 →
      t < h0.begin →
      (attrAll (sectionsLimits (sectionsPy source false)) 0 ts).get? i =
        some 0) ∧
    (∀ j sec, (sectionsLimits (sectionsPy source false)).get? j = some sec →
      sec.begin ≤ t → t < sec.«end» →
      (attrAll (sectionsLimits (sectionsPy source false)) 0 ts).get? i =
        some (j + 1)) :=
  attrAll_spec (sectionsLimits (sectionsPy source false))
    (limitsWF_sections source) ts 0 hts
    (fun t0 _ => fun i a hi _ => absurd hi (by omega)) i t ht

/-- Witness for C9: in `"z\n==A==\nbb"` the single section `==A==` spans
offsets 2-10; offset 0 is attributed the sentinel 0 and offset 5 is
attributed section number 1. -/
theorem c9_section_attribution_witness :
    (attrAll (sectionsLimits (sectionsPy (str "z\n==A==\nbb") false)) 0
        [0, 5]).get? 0 = some 0 ∧
    (attrAll (sectionsLimits (sectionsPy (str "z\n==A==\nbb") false)) 0
        [0, 5]).get? 1 = some 1 :=
  ⟨(c9_section_attribution (str "z\n==A==\nbb") [0, 5]
        (by simp [List.chain'_cons]) 0 0 rfl).1
      ⟨str "A", 2, 1, 2, 10⟩ (by decide) (by decide),
   (c9_section_attribution (str "z\n==A==\nbb") [0, 5]
        (by simp [List.chain'_cons]) 1 5 rfl).2
      0 ⟨str "A", 2, 1, 2, 10⟩ (by decide) (by decide) (by decide)⟩

end Wikidump

